import Mathlib

/-!
Shallow embedding of the bilinear-form assembly engine of `fem/bilinearform.hpp`
(classes `BilinearForm` and `MixedBilinearForm`).

Matrices over DOF indices are embedded as total functions `Fin m → Fin n → ℚ`
(the C++ `double` entries are modelled with exact rationals; sparse storage is
modelled by its mathematical content, entry values).  Method bodies that are
inline in the header (`FullMult`, `FullAddMult`, `FullInnerProduct`,
`operator=`, `AllocateMatrix`, `LoseMat`, `MultTranspose`) are translated
directly; method bodies that the repository only declares in the header
(`EliminateVDofs`, `Assemble`, `ConformingAssemble`, the `SparseMatrix`
kernels) are modelled from the specification, as marked in their doc comments.
-/

/-- A vector of DOF values. -/
def Vec (n : Nat) : Type := Fin n → ℚ

/-- A matrix over DOF indices (`m` rows, `n` columns). -/
def Mat (m n : Nat) : Type := Fin m → Fin n → ℚ

instance : DecidableEq (Vec n) := by unfold Vec; infer_instance

instance : DecidableEq (Mat m n) := by unfold Mat; infer_instance

/-- The zero matrix (a freshly allocated sparse matrix has no stored entries). -/
def zeroMat (m n : Nat) : Mat m n := fun _ _ => 0

/-- The identity matrix. -/
def idMat (n : Nat) : Mat n n := fun i j => if i = j then 1 else 0

/-- Entrywise sum of two matrices. -/
def matAdd (A B : Mat m n) : Mat m n := fun i j => A i j + B i j

/-- Row count of a matrix. -/
def numRows (_ : Mat m n) : Nat := m

/-- Column count of a matrix. -/
def numCols (_ : Mat m n) : Nat := n

/-- Modelled from the spec: `SparseMatrix::Mult(x, y)` (from the external
sparse-operator collaborator, `linalg`, not under `src/`) sets `y` to the
matrix-vector product `A x`. -/
def smMult (A : Mat m n) (x : Vec n) : Vec m :=
  fun i => ∑ j, A i j * x j

/-- Modelled from the spec: `SparseMatrix::AddMult(x, y, a)` adds `a · A x`
to `y`. -/
def smAddMult (A : Mat m n) (x : Vec n) (y : Vec m) (a : ℚ) : Vec m :=
  fun i => y i + a * smMult A x i

/-- Modelled from the spec: `SparseMatrix::InnerProduct(x, y)` returns the
first vector dotted with the operator applied to the second. -/
def smInnerProduct (A : Mat n n) (x y : Vec n) : ℚ :=
  ∑ i, x i * smMult A y i

/-- `BilinearForm::FullMult(x, y)`:
`mat->Mult(x, y); mat_e->AddMult(x, y);` (bilinearform.hpp:105-106). -/
def fullMult (mat mat_e : Mat n n) (x : Vec n) : Vec n :=
  smAddMult mat_e x (smMult mat x) 1

/-- `BilinearForm::FullAddMult(x, y)`:
`mat->AddMult(x, y); mat_e->AddMult(x, y);` (bilinearform.hpp:111-112). -/
def fullAddMult (mat mat_e : Mat n n) (x y : Vec n) : Vec n :=
  smAddMult mat_e x (smAddMult mat x y 1) 1

/-- `BilinearForm::FullInnerProduct(x, y)`:
`mat->InnerProduct(x, y) + mat_e->InnerProduct(x, y)` (bilinearform.hpp:187-188). -/
def fullInnerProduct (mat mat_e : Mat n n) (x y : Vec n) : ℚ :=
  smInnerProduct mat x y + smInnerProduct mat_e x y

/-!
## Essential-DOF elimination

The bodies of `EliminateVDofs`, `EliminateEssentialBC` and
`EliminateEssentialBCFromDofs` live in `fem/bilinearform.cpp`, which is not
part of the repository snapshot; they are modelled from the specification,
§4.4: for each essential DOF `d`, (1) move every off-diagonal entry of row `d`
and column `d` of the primary operator into the eliminated-part operator at
the same coordinates and zero it in the primary operator; (2) set the
diagonal entry `(d,d)` to the caller-specified diagonal value, or leave it
untouched when the `d == 0` discriminator requests no forcing (header
comment, bilinearform.hpp:171-172: "If d == 0 the diagonal at the ess. b.c.
is set to 1.0, otherwise leave it the same"); (3) in the overloads taking
solution and right-hand-side vectors, subtract `A(r,dof) * sol(dof)` from
`rhs(r)` for every other row `r` and set `rhs(dof)` to the (possibly forced)
diagonal value times `sol(dof)`.
-/

/-- Modelled from the spec: one elimination step on the primary operator.
`sd = true` forces the diagonal `(dof,dof)` to `v`; off-diagonal entries of
row `dof` and column `dof` become zero; everything else is untouched. -/
def elimStep (A : Mat n n) (dof : Fin n) (sd : Bool) (v : ℚ) : Mat n n :=
  fun i j =>
    if i = dof ∧ j = dof then (if sd then v else A i j)
    else if i = dof ∨ j = dof then 0 else A i j

/-- Modelled from the spec: the entries moved out of the primary operator by
one elimination step — the off-diagonal entries of row `dof` and column
`dof`. -/
def elimMove (A : Mat n n) (dof : Fin n) : Mat n n :=
  fun i j => if ¬ i = j ∧ (i = dof ∨ j = dof) then A i j else 0

/-- Modelled from the spec: one elimination step on the pair
(primary operator, eliminated-part operator): the moved entries are
accumulated into the eliminated part. -/
def elimRowCol (p : Mat n n × Mat n n) (dof : Fin n) (sd : Bool) (v : ℚ) :
    Mat n n × Mat n n :=
  (elimStep p.1 dof sd v, matAdd p.2 (elimMove p.1 dof))

/-- Modelled from the spec: eliminate a list of DOFs in order on the pair
(primary, eliminated part). -/
def elimList (p : Mat n n × Mat n n) (S : List (Fin n)) (sd : Bool) (v : ℚ) :
    Mat n n × Mat n n :=
  S.foldl (fun q dof => elimRowCol q dof sd v) p

/-- Modelled from the spec: `BilinearForm::EliminateVDofs(vdofs, d)`
(bilinearform.hpp:179-181) — eliminate the listed DOFs, storing the
eliminated part internally; `d == 0` forces each eliminated diagonal to 1.0,
otherwise the diagonal is kept. -/
def eliminateVDofs (p : Mat n n × Mat n n) (vdofs : List (Fin n)) (d : Int) :
    Mat n n × Mat n n :=
  elimList p vdofs (d == 0) 1

/-- The marker convention of `EliminateEssentialBCFromDofs`
(bilinearform.hpp:193-194): `ess_dofs[i] < 0` means DOF `i` is essential.
This converts the marker array to the list of marked DOFs. -/
def markedDofs (n : Nat) (ess : Fin n → Int) : List (Fin n) :=
  (List.finRange n).filter (fun i => ess i < 0)

/-- Modelled from the spec:
`BilinearForm::EliminateEssentialBCFromDofs(ess_dofs, d, diag_value)`
(bilinearform.hpp:200-201) — eliminate every DOF marked negative in
`ess_dofs`; `d == 0` forces each eliminated diagonal to `diag_value`,
otherwise the diagonal is kept. -/
def eliminateEssentialBCFromDofs (p : Mat n n × Mat n n) (ess : Fin n → Int)
    (d : Int) (diag_value : ℚ) : Mat n n × Mat n n :=
  elimList p (markedDofs n ess) (d == 0) diag_value

/-- The deferred overload `EliminateEssentialBCFromDofs(ess_dofs)` called
with its default arguments `d = 0`, `diag_value = 1.0`
(bilinearform.hpp:200-201). -/
def eliminateEssentialBCFromDofsDefaults (p : Mat n n × Mat n n)
    (ess : Fin n → Int) : Mat n n × Mat n n :=
  eliminateEssentialBCFromDofs p ess 0 1

/-- Modelled from the spec: one elimination step of the overloads taking
solution and right-hand-side vectors.  The primary operator is updated as in
`elimStep` with forced diagonal 1.0 when `d == 0`; the right-hand side is
immediately corrected: `rhs(r) -= A(r,dof) * sol(dof)` for every row
`r ≠ dof`, and `rhs(dof)` becomes the (possibly forced) diagonal value times
`sol(dof)`. -/
def elimRowColSolRhs (p : Mat n n × Vec n) (sol : Vec n) (dof : Fin n)
    (d : Int) : Mat n n × Vec n :=
  (elimStep p.1 dof (d == 0) 1,
   fun r =>
     if r = dof then (if d == 0 then 1 else p.1 dof dof) * sol dof
     else p.2 r - p.1 r dof * sol dof)

/-- Modelled from the spec:
`BilinearForm::EliminateVDofs(vdofs, sol, rhs, d)` (bilinearform.hpp:176-177)
— eliminate the listed DOFs, correcting the right-hand side immediately;
`d == 0` sets each eliminated diagonal to 1.0, otherwise the diagonal is
kept. -/
def eliminateVDofsSolRhs (p : Mat n n × Vec n) (vdofs : List (Fin n))
    (sol : Vec n) (d : Int) : Mat n n × Vec n :=
  vdofs.foldl (fun q dof => elimRowColSolRhs q sol dof d) p

/-- Modelled from the spec:
`BilinearForm::EliminateEssentialBCFromDofs(ess_dofs, sol, rhs, d)`
(bilinearform.hpp:195-196) — like `eliminateVDofsSolRhs` on the DOFs marked
negative in `ess_dofs`. -/
def eliminateEssentialBCFromDofsSolRhs (p : Mat n n × Vec n)
    (ess : Fin n → Int) (sol : Vec n) (d : Int) : Mat n n × Vec n :=
  eliminateVDofsSolRhs p (markedDofs n ess) sol d

/-!
## Assembly (spec §4.2, §4.3)

`BilinearForm::Assemble` and `MixedBilinearForm::Assemble` are declared in
the header but implemented in `fem/bilinearform.cpp`, which is not part of
the repository snapshot; they are modelled from the specification: for each
element, fetch its vdofs and local dense matrix and accumulate entry `(i,j)`
of the local matrix into global position `(vdofs[i], vdofs[j])` (for the
mixed engine, test vdofs index the rows and trial vdofs the columns).
-/

/-- One element contribution for the square engine: `k` local DOFs, the
element's vdofs map, and the local dense matrix. -/
structure ElemMat (n : Nat) where
  k : Nat
  vd : Fin k → Fin n
  m : Fin k → Fin k → ℚ

/-- Modelled from the spec: `BilinearForm::AssembleElementMatrix` — scatter
a local matrix into the sparse operator at the cross product of its vdofs. -/
def assembleElementMatrix (A : Mat n n) (e : ElemMat n) : Mat n n :=
  fun r c =>
    A r c + ∑ i, ∑ j, if e.vd i = r ∧ e.vd j = c then e.m i j else 0

/-- Modelled from the spec: `BilinearForm::Assemble` — accumulate every
element contribution into an initially empty sparse operator. -/
def assemble (es : List (ElemMat n)) : Mat n n :=
  es.foldl assembleElementMatrix (zeroMat n n)

/-- One element contribution for the mixed engine: test-space vdofs index
the rows, trial-space vdofs index the columns of the local matrix. -/
structure MixedElemMat (testN trialN : Nat) where
  kTest : Nat
  kTrial : Nat
  testVd : Fin kTest → Fin testN
  trialVd : Fin kTrial → Fin trialN
  m : Fin kTest → Fin kTrial → ℚ

/-- Modelled from the spec: scatter one mixed element contribution. -/
def mixedAssembleElementMatrix (A : Mat testN trialN)
    (e : MixedElemMat testN trialN) : Mat testN trialN :=
  fun r c =>
    A r c + ∑ i, ∑ j, if e.testVd i = r ∧ e.trialVd j = c then e.m i j else 0

/-- Modelled from the spec: `MixedBilinearForm::Assemble` — the assembled
rectangular operator has test-space DOF count rows and trial-space DOF count
columns (class comment, bilinearform.hpp:211-225). -/
def mixedAssemble (es : List (MixedElemMat testN trialN)) :
    Mat testN trialN :=
  es.foldl mixedAssembleElementMatrix (zeroMat testN trialN)

/-- The bilinear form value `a(u, v) = Σ_elements Σ_{i,j} v(testVd i) ·
m(i,j) · u(trialVd j)` that the assembled mixed operator must represent. -/
def mixedFormValue (es : List (MixedElemMat testN trialN)) (u : Vec trialN)
    (v : Vec testN) : ℚ :=
  (es.map (fun e => ∑ i, ∑ j, v (e.testVd i) * e.m i j * u (e.trialVd j))).sum

/-- Dot product of two DOF vectors. -/
def dotVec (x y : Vec n) : ℚ := ∑ i, x i * y i

/-!
## Conforming assembly (spec §4.5)

`ConformingAssemble` is declared in the header with the contract
"performing A := P^t A P where A is the internal sparse matrix and P is the
conforming prolongation of the FE space" (bilinearform.hpp:146-150); its body
is in `fem/bilinearform.cpp`, not part of the snapshot, so the operation is
modelled from that contract.
-/

/-- Matrix product. -/
def matMul (A : Mat m k) (B : Mat k n) : Mat m n :=
  fun i j => ∑ l, A i l * B l j

/-- Matrix transpose. -/
def transposeMat (A : Mat m n) : Mat n m := fun i j => A j i

/-- Modelled from the spec: `BilinearForm::ConformingAssemble` replaces the
primary operator `A` by `P^t A P`, `P` being the space's conforming
prolongation. -/
def conformingAssemble (P : Mat n c) (A : Mat n n) : Mat c c :=
  matMul (matMul (transposeMat P) A) P

/-!
## Engine state (ownership, lazy allocation, `LoseMat`, `operator=`)

These methods are inline in the header, so they are translated directly.
The pointer fields `mat` and `mat_e` become `Option` values (`none` = the
null pointer).
-/

/-- The state of a `BilinearForm` engine that the inline header methods
touch: the primary operator `mat`, the eliminated-part operator `mat_e`
(bilinearform.hpp:31-34), and the `precompute_sparsity` flag
(bilinearform.hpp:58). -/
structure BFState (n : Nat) where
  mat : Option (Mat n n)
  mat_e : Option (Mat n n)
  precompute_sparsity : Int

/-- `BilinearForm::LoseMat()`:
`SparseMatrix *tmp = mat; mat = NULL; return tmp;` (bilinearform.hpp:126). -/
def BFState.loseMat (s : BFState n) : Option (Mat n n) × BFState n :=
  (s.mat, { s with mat := none })

/-- `BilinearForm::operator=(const double a)`:
`if (mat != NULL) *mat = a; if (mat_e != NULL) *mat_e = a;`
(bilinearform.hpp:140-141).  Modelled from the spec:
`SparseMatrix::operator=(double)` overwrites every stored entry with `a`. -/
def BFState.assignScalar (s : BFState n) (a : ℚ) : BFState n :=
  { s with
    mat := s.mat.map (fun _ => fun _ _ => a)
    mat_e := s.mat_e.map (fun _ => fun _ _ => a) }

/-- `BilinearForm::AllocateMatrix()`: `if (mat == NULL) AllocMat();`
(bilinearform.hpp:84).  Modelled from the spec: `AllocMat` allocates the
sparse operator sized to the space's DOF count, with no stored entries. -/
def BFState.allocateMatrix (s : BFState n) : BFState n :=
  if s.mat = none then { s with mat := some (zeroMat n n) } else s

/-- The state of a `MixedBilinearForm` engine that the inline header methods
touch: the single operator pointer `mat` (bilinearform.hpp:229). -/
structure MixedBFState (testN trialN : Nat) where
  mat : Option (Mat testN trialN)

/-- `MixedBilinearForm::LoseMat()` (bilinearform.hpp:267). -/
def MixedBFState.loseMat (s : MixedBFState testN trialN) :
    Option (Mat testN trialN) × MixedBFState testN trialN :=
  (s.mat, { s with mat := none })

/-- `MixedBilinearForm::operator=(const double a)`: `*mat = a;`
(bilinearform.hpp:284) — the pointer is dereferenced unconditionally, so the
call only succeeds when the operator is allocated; `none` models the failing
null dereference. -/
def MixedBFState.assignScalar (s : MixedBFState testN trialN) (a : ℚ) :
    Option (MixedBFState testN trialN) :=
  s.mat.map (fun _ => { s with mat := some (fun _ _ => a) })

/-!
## Mixed-form transpose application

`MixedBilinearForm::MultTranspose` is inline in the header
(bilinearform.hpp:253-254): `y = 0.0; AddMultTranspose(x, y);`.
`AddMultTranspose` itself is implemented in `fem/bilinearform.cpp`, not part
of the snapshot, and is modelled from the specification as
`y += a · Aᵗ x`. -/

/-- Modelled from the spec: `MixedBilinearForm::AddMultTranspose(x, y, a)`
adds `a · Aᵗ x` to `y`. -/
def mixedAddMultTranspose (A : Mat testN trialN) (x : Vec testN)
    (y : Vec trialN) (a : ℚ) : Vec trialN :=
  fun j => y j + a * ∑ i, A i j * x i

/-- `MixedBilinearForm::MultTranspose(x, y)`:
`y = 0.0; AddMultTranspose(x, y);` (bilinearform.hpp:253-254) — the incoming
contents of `y` are overwritten with zeros, then `AddMultTranspose` is
applied with its default scale 1.0. -/
def mixedMultTranspose (A : Mat testN trialN) (x : Vec testN)
    (_y : Vec trialN) : Vec trialN :=
  mixedAddMultTranspose A x (fun _ => 0) 1

/-- Entrywise difference of two matrices. -/
def matSub (A B : Mat m n) : Mat m n := fun i j => A i j - B i j

/-- The diagonal part of a square matrix. -/
def diagPart (A : Mat n n) : Mat n n :=
  fun i j => if i = j then A i j else 0

/-!
## Closed form of the elimination fold

Eliminating a list `S` of DOFs only depends on which DOFs occur in `S`:
the primary operator keeps its entries outside the eliminated rows/columns,
zeroes the eliminated off-diagonal entries, and forces (or keeps) the
eliminated diagonals; the eliminated part accumulates exactly the moved
off-diagonal entries, each once.
-/

/-- Closed form of the primary operator after eliminating every DOF in
`S`. -/
def elimClosedA (A : Mat n n) (S : List (Fin n)) (sd : Bool) (v : ℚ) :
    Mat n n :=
  fun i j =>
    if i = j then (if sd = true ∧ i ∈ S then v else A i j)
    else if i ∈ S ∨ j ∈ S then 0 else A i j

/-- Closed form of the entries moved into the eliminated part: the
off-diagonal entries of the eliminated rows and columns. -/
def elimClosedMove (A : Mat n n) (S : List (Fin n)) : Mat n n :=
  fun i j => if ¬ i = j ∧ (i ∈ S ∨ j ∈ S) then A i j else 0

theorem elimClosedA_cons (A : Mat n n) (r : Fin n) (S : List (Fin n))
    (sd : Bool) (v : ℚ) :
    elimClosedA (elimStep A r sd v) S sd v = elimClosedA A (r :: S) sd v := by
  funext i j
  simp only [elimClosedA, elimStep, List.mem_cons]
  by_cases hij : i = j <;> by_cases hir : i = r <;> by_cases hjr : j = r <;>
    by_cases hiS : i ∈ S <;> by_cases hjS : j ∈ S <;> cases sd <;>
    simp_all

theorem elimClosedMove_cons (A : Mat n n) (r : Fin n) (S : List (Fin n))
    (sd : Bool) (v : ℚ) :
    matAdd (elimMove A r) (elimClosedMove (elimStep A r sd v) S)
      = elimClosedMove A (r :: S) := by
  funext i j
  simp only [matAdd, elimMove, elimClosedMove, elimStep, List.mem_cons]
  by_cases hij : i = j <;> by_cases hir : i = r <;> by_cases hjr : j = r <;>
    by_cases hiS : i ∈ S <;> by_cases hjS : j ∈ S <;> cases sd <;>
    simp_all

theorem elimList_fst_closed (S : List (Fin n)) (A Ae : Mat n n) (sd : Bool)
    (v : ℚ) :
    (elimList (A, Ae) S sd v).1 = elimClosedA A S sd v := by
  induction S generalizing A Ae with
  | nil =>
    funext i j
    simp [elimList, elimClosedA]
  | cons r S ih =>
    show (elimList (elimRowCol (A, Ae) r sd v) S sd v).1 = _
    rw [elimRowCol, ih, elimClosedA_cons]

theorem elimList_snd_closed (S : List (Fin n)) (A Ae : Mat n n) (sd : Bool)
    (v : ℚ) :
    (elimList (A, Ae) S sd v).2 = matAdd Ae (elimClosedMove A S) := by
  induction S generalizing A Ae with
  | nil =>
    funext i j
    simp [elimList, elimClosedMove, matAdd]
  | cons r S ih =>
    show (elimList (elimRowCol (A, Ae) r sd v) S sd v).2 = _
    rw [elimRowCol, ih]
    funext i j
    have h := congrFun (congrFun (elimClosedMove_cons A r S sd v) i) j
    simp only [matAdd] at h ⊢
    linarith [h]

theorem mem_markedDofs (ess : Fin n → Int) (i : Fin n) :
    i ∈ markedDofs n ess ↔ ess i < 0 := by
  simp [markedDofs, List.mem_filter, List.mem_finRange]

/-- When the diagonal is not forced, the sum of primary and eliminated part
is invariant under one whole elimination pass. -/
theorem elimList_matAdd_keep (S : List (Fin n)) (A Ae : Mat n n) (v : ℚ) :
    matAdd (elimList (A, Ae) S false v).1 (elimList (A, Ae) S false v).2
      = matAdd A Ae := by
  rw [elimList_fst_closed, elimList_snd_closed]
  funext i j
  simp only [matAdd, elimClosedA, elimClosedMove]
  by_cases hij : i = j <;> by_cases hiS : i ∈ S <;> by_cases hjS : j ∈ S <;>
    simp_all <;> ring

theorem smMult_matAdd (A B : Mat n n) (x : Vec n) :
    smMult (matAdd A B) x = fun i => smMult A x i + smMult B x i := by
  funext i
  simp [smMult, matAdd, add_mul, Finset.sum_add_distrib]

/-- The matrix component of the solution/right-hand-side elimination fold is
the same closed form as the deferred fold. -/
theorem eliminateVDofsSolRhs_fst (S : List (Fin n)) (A : Mat n n) (b : Vec n)
    (sol : Vec n) (d : Int) :
    (eliminateVDofsSolRhs (A, b) S sol d).1 = elimClosedA A S (d == 0) 1 := by
  induction S generalizing A b with
  | nil =>
    funext i j
    simp [eliminateVDofsSolRhs, elimClosedA]
  | cons r S ih =>
    show (eliminateVDofsSolRhs (elimRowColSolRhs (A, b) sol r d) S sol d).1 = _
    rw [elimRowColSolRhs, ih, elimClosedA_cons]

/-- Eliminating a set of DOFs a second time changes nothing on the primary
operator. -/
theorem elimClosedA_idem (A : Mat n n) (S : List (Fin n)) (sd : Bool)
    (v : ℚ) :
    elimClosedA (elimClosedA A S sd v) S sd v = elimClosedA A S sd v := by
  funext i j
  simp only [elimClosedA]
  by_cases hij : i = j <;> by_cases hiS : i ∈ S <;> by_cases hjS : j ∈ S <;>
    cases sd <;> simp_all

/-- A second elimination pass over the same DOF set moves only zeros, so the
eliminated part stays put. -/
theorem elimClosedMove_after (A : Mat n n) (S : List (Fin n)) (sd : Bool)
    (v : ℚ) (Y : Mat n n) :
    matAdd Y (elimClosedMove (elimClosedA A S sd v) S) = Y := by
  funext i j
  simp only [matAdd, elimClosedMove, elimClosedA]
  by_cases hij : i = j <;> by_cases hiS : i ∈ S <;> by_cases hjS : j ∈ S <;>
    simp_all

theorem elimList_pair_closed (S : List (Fin n)) (A Ae : Mat n n) (sd : Bool)
    (v : ℚ) :
    elimList (A, Ae) S sd v
      = (elimClosedA A S sd v, matAdd Ae (elimClosedMove A S)) :=
  Prod.ext (elimList_fst_closed S A Ae sd v) (elimList_snd_closed S A Ae sd v)

/-- Scattering a symmetric local matrix into a symmetric operator keeps the
operator symmetric. -/
theorem assembleElementMatrix_symm (A : Mat n n) (e : ElemMat n)
    (hA : ∀ r c, A r c = A c r) (he : ∀ i j, e.m i j = e.m j i) (r c : Fin n) :
    assembleElementMatrix A e r c = assembleElementMatrix A e c r := by
  unfold assembleElementMatrix
  rw [hA r c]
  congr 1
  rw [Finset.sum_comm]
  refine Finset.sum_congr rfl fun i _ => Finset.sum_congr rfl fun j _ => ?_
  rw [he j i]
  exact if_congr and_comm rfl rfl

/-- Assembling any list of symmetric element matrices over a symmetric
accumulator yields a symmetric operator. -/
theorem assemble_foldl_symm (es : List (ElemMat n)) :
    ∀ A : Mat n n, (∀ r c, A r c = A c r) →
      (∀ e ∈ es, ∀ i j, e.m i j = e.m j i) →
      ∀ r c, es.foldl assembleElementMatrix A r c
        = es.foldl assembleElementMatrix A c r := by
  induction es with
  | nil => exact fun A hA _ r c => hA r c
  | cons e t ih =>
    intro A hA hes r c
    exact ih (assembleElementMatrix A e)
      (assembleElementMatrix_symm A e hA (hes e (List.mem_cons_self e t)))
      (fun f hf => hes f (List.mem_cons_of_mem e hf)) r c

/-- Collapsing the column sum of one scattered mixed element contribution
against a trial-space vector. -/
theorem mixed_inner_collapse (e : MixedElemMat testN trialN) (U : Vec trialN)
    (r : Fin testN) :
    (∑ c, (∑ i, ∑ j, if e.testVd i = r ∧ e.trialVd j = c then e.m i j
        else 0) * U c)
      = ∑ i, ∑ j, if e.testVd i = r then e.m i j * U (e.trialVd j) else 0 := by
  simp only [Finset.sum_mul]
  rw [Finset.sum_comm]
  refine Finset.sum_congr rfl fun i _ => ?_
  rw [Finset.sum_comm]
  refine Finset.sum_congr rfl fun j _ => ?_
  by_cases h : e.testVd i = r
  · simp [h, ite_and, ite_mul, zero_mul, Finset.sum_ite_eq]
  · simp [h]

/-- Scattering one mixed element contribution adds its local bilinear value
to the global bilinear value. -/
theorem mixedScatter_dot (A : Mat testN trialN) (e : MixedElemMat testN trialN)
    (U : Vec trialN) (V : Vec testN) :
    dotVec V (smMult (mixedAssembleElementMatrix A e) U)
      = dotVec V (smMult A U)
        + ∑ i, ∑ j, V (e.testVd i) * e.m i j * U (e.trialVd j) := by
  unfold dotVec smMult mixedAssembleElementMatrix
  simp only [add_mul, Finset.sum_add_distrib, mul_add]
  congr 1
  calc
    ∑ r, V r * ∑ c, (∑ i, ∑ j, if e.testVd i = r ∧ e.trialVd j = c
          then e.m i j else 0) * U c
        = ∑ r, V r * ∑ i, ∑ j, if e.testVd i = r
            then e.m i j * U (e.trialVd j) else 0 := by
          exact Finset.sum_congr rfl fun r _ => by rw [mixed_inner_collapse]
    _ = ∑ r, ∑ i, ∑ j, if e.testVd i = r
          then V r * (e.m i j * U (e.trialVd j)) else 0 := by
          simp [Finset.mul_sum, mul_ite]
    _ = ∑ i, ∑ j, ∑ r, if e.testVd i = r
          then V r * (e.m i j * U (e.trialVd j)) else 0 := by
          rw [Finset.sum_comm]
          exact Finset.sum_congr rfl fun i _ => Finset.sum_comm
    _ = ∑ i, ∑ j, V (e.testVd i) * e.m i j * U (e.trialVd j) := by
          refine Finset.sum_congr rfl fun i _ =>
            Finset.sum_congr rfl fun j _ => ?_
          rw [Finset.sum_ite_eq]
          simp [mul_assoc]

/-- Accumulating mixed element contributions accumulates their bilinear
values. -/
theorem mixedFoldl_dot (es : List (MixedElemMat testN trialN)) :
    ∀ (A : Mat testN trialN) (U : Vec trialN) (V : Vec testN),
      dotVec V (smMult (es.foldl mixedAssembleElementMatrix A) U)
        = dotVec V (smMult A U) + mixedFormValue es U V := by
  induction es with
  | nil =>
    intro A U V
    simp [mixedFormValue]
  | cons e t ih =>
    intro A U V
    show dotVec V (smMult
      (t.foldl mixedAssembleElementMatrix (mixedAssembleElementMatrix A e))
      U) = _
    rw [ih, mixedScatter_dot]
    simp only [mixedFormValue, List.map_cons, List.sum_cons]
    ring

/-!
## Claim theorems
-/

/-- C1, counterexample: on the 1×1 operator with single entry 2, eliminating
DOF 0 with the diagonal forced (`d == 0`) leaves `mat + mat_e` with entry
1 ≠ 2, so the sum does not equal the pre-elimination operator, and
`FullMult` does not reproduce the pre-elimination product. -/
theorem c1_sum_counterexample :
    ¬ (matAdd (eliminateVDofs (((fun _ _ => 2) : Mat 1 1), zeroMat 1 1)
                [0] 0).1
              (eliminateVDofs (((fun _ _ => 2) : Mat 1 1), zeroMat 1 1)
                [0] 0).2
        = ((fun _ _ => 2) : Mat 1 1) ∧
       fullMult (eliminateVDofs (((fun _ _ => 2) : Mat 1 1), zeroMat 1 1)
                  [0] 0).1
                (eliminateVDofs (((fun _ _ => 2) : Mat 1 1), zeroMat 1 1)
                  [0] 0).2
                (fun _ => 1)
        = smMult ((fun _ _ => 2) : Mat 1 1) ((fun _ => 1) : Vec 1)) := by
  intro h
  obtain ⟨h1, -⟩ := h
  have h0 := congrFun (congrFun h1 0) 0
  unfold eliminateVDofs at h0
  rw [elimList_fst_closed, elimList_snd_closed] at h0
  simp [matAdd, elimClosedA, elimClosedMove, zeroMat] at h0

/-- C1 (amended): when elimination is requested without forcing the diagonal
(`d ≠ 0`), the sum `mat + mat_e` equals the pre-elimination operator, and
`FullMult`, `FullAddMult` and `FullInnerProduct` compute the matrix-vector
product, accumulated product and inner product of the pre-elimination
operator.  (When the diagonal is forced, the sum differs from the
pre-elimination operator exactly at the forced diagonal entries.) -/
theorem c1_full_operators_keep_diag (n : Nat) (A : Mat n n)
    (S : List (Fin n)) (d : Int) (hd : d ≠ 0) :
    matAdd (eliminateVDofs (A, zeroMat n n) S d).1
           (eliminateVDofs (A, zeroMat n n) S d).2 = A ∧
    (∀ x, fullMult (eliminateVDofs (A, zeroMat n n) S d).1
                   (eliminateVDofs (A, zeroMat n n) S d).2 x = smMult A x) ∧
    (∀ x y i, fullAddMult (eliminateVDofs (A, zeroMat n n) S d).1
                          (eliminateVDofs (A, zeroMat n n) S d).2 x y i
                = y i + smMult A x i) ∧
    (∀ x y, fullInnerProduct (eliminateVDofs (A, zeroMat n n) S d).1
                             (eliminateVDofs (A, zeroMat n n) S d).2 x y
              = smInnerProduct A x y) := by
  have hbeq : (d == 0) = false := beq_eq_false_iff_ne.mpr hd
  have hsum : matAdd (eliminateVDofs (A, zeroMat n n) S d).1
      (eliminateVDofs (A, zeroMat n n) S d).2 = A := by
    unfold eliminateVDofs
    rw [hbeq, elimList_matAdd_keep]
    funext i j
    simp [matAdd, zeroMat]
  have hM : ∀ x i, smMult (eliminateVDofs (A, zeroMat n n) S d).1 x i
      + smMult (eliminateVDofs (A, zeroMat n n) S d).2 x i = smMult A x i := by
    intro x i
    have h := congrFun (smMult_matAdd (eliminateVDofs (A, zeroMat n n) S d).1
      (eliminateVDofs (A, zeroMat n n) S d).2 x) i
    rw [hsum] at h
    exact h.symm
  refine ⟨hsum, ?_, ?_, ?_⟩
  · intro x
    funext i
    simp only [fullMult, smAddMult, one_mul]
    exact hM x i
  · intro x y i
    simp only [fullAddMult, smAddMult, one_mul]
    have := hM x i
    linarith
  · intro x y
    simp only [fullInnerProduct, smInnerProduct, ← Finset.sum_add_distrib,
      ← mul_add]
    exact Finset.sum_congr rfl fun i _ => by rw [hM y i]

/-- C1 witness: a concrete instance of the amended theorem at `d = 1`. -/
theorem c1_full_operators_keep_diag_witness :
    (1 : Int) ≠ 0 ∧
    matAdd (eliminateVDofs ((fun _ _ => (3 : ℚ)), zeroMat 1 1) [0] 1).1
           (eliminateVDofs ((fun _ _ => (3 : ℚ)), zeroMat 1 1) [0] 1).2
      = (fun _ _ => (3 : ℚ)) :=
  ⟨by decide, (c1_full_operators_keep_diag 1 (fun _ _ => 3) [0] 1
    (by decide)).1⟩

/-- C2: eliminating every DOF of an N×N operator with the diagonal forced to
`dv` yields `dv · Identity` as primary operator and the original operator
minus its diagonal as eliminated part. -/
theorem c2_eliminate_all_dofs (n : Nat) (A : Mat n n) (dv : ℚ) :
    (eliminateEssentialBCFromDofs (A, zeroMat n n) (fun _ => -1) 0 dv).1
        = (fun i j => dv * idMat n i j) ∧
    (eliminateEssentialBCFromDofs (A, zeroMat n n) (fun _ => -1) 0 dv).2
        = matSub A (diagPart A) := by
  unfold eliminateEssentialBCFromDofs
  constructor
  · rw [elimList_fst_closed]
    funext i j
    have hi : i ∈ markedDofs n (fun _ => -1) :=
      (mem_markedDofs _ i).mpr (by norm_num)
    by_cases hij : i = j
    · subst hij
      simp [elimClosedA, idMat, hi]
    · simp [elimClosedA, idMat, hij, hi]
  · rw [elimList_snd_closed]
    funext i j
    have hi : i ∈ markedDofs n (fun _ => -1) :=
      (mem_markedDofs _ i).mpr (by norm_num)
    by_cases hij : i = j <;>
      simp [matAdd, elimClosedMove, matSub, diagPart, zeroMat, hij, hi]

/-- C3: in the elimination overloads taking solution and right-hand-side
vectors, `d == 0` forces each eliminated diagonal to 1.0 while `d ≠ 0`
leaves every diagonal entry unchanged; the deferred
`EliminateEssentialBCFromDofs` overload with default arguments uses
diagonal value 1.0. -/
theorem c3_diag_discriminator (n : Nat) :
    (∀ (A : Mat n n) (b sol : Vec n) (S : List (Fin n)) (dof : Fin n),
        dof ∈ S →
        (eliminateVDofsSolRhs (A, b) S sol 0).1 dof dof = 1) ∧
    (∀ (A : Mat n n) (b sol : Vec n) (ess : Fin n → Int) (dof : Fin n),
        ess dof < 0 →
        (eliminateEssentialBCFromDofsSolRhs (A, b) ess sol 0).1 dof dof
          = 1) ∧
    (∀ (A : Mat n n) (b sol : Vec n) (S : List (Fin n)) (dof : Fin n)
        (d : Int), d ≠ 0 →
        (eliminateVDofsSolRhs (A, b) S sol d).1 dof dof = A dof dof) ∧
    (∀ (p : Mat n n × Mat n n) (ess : Fin n → Int),
        eliminateEssentialBCFromDofsDefaults p ess
          = eliminateEssentialBCFromDofs p ess 0 1) := by
  refine ⟨?_, ?_, ?_, fun p ess => rfl⟩
  · intro A b sol S dof hdof
    rw [eliminateVDofsSolRhs_fst]
    simp [elimClosedA, hdof]
  · intro A b sol ess dof hdof
    unfold eliminateEssentialBCFromDofsSolRhs
    rw [eliminateVDofsSolRhs_fst]
    simp [elimClosedA, (mem_markedDofs ess dof).mpr hdof]
  · intro A b sol S dof d hd
    rw [eliminateVDofsSolRhs_fst]
    simp [elimClosedA, beq_eq_false_iff_ne.mpr hd]

/-- C3 witness: concrete instances of the discriminator behavior at `n = 1`. -/
theorem c3_diag_discriminator_witness :
    ((0 : Fin 1) ∈ [(0 : Fin 1)] ∧
      (eliminateVDofsSolRhs (((fun _ _ => 7) : Mat 1 1), fun _ => 0) [0]
        (fun _ => 0) 0).1 0 0 = 1) ∧
    ((2 : Int) ≠ 0 ∧
      (eliminateVDofsSolRhs (((fun _ _ => 7) : Mat 1 1), fun _ => 0) [0]
        (fun _ => 0) 2).1 0 0 = 7) := by
  refine ⟨⟨by decide, (c3_diag_discriminator 1).1 (fun _ _ => 7) (fun _ => 0)
            (fun _ => 0) [0] 0 (by decide)⟩,
          ⟨by decide, ?_⟩⟩
  exact (c3_diag_discriminator 1).2.2.1 (fun _ _ => 7) (fun _ => 0)
    (fun _ => 0) [0] 0 2 (by decide)

/-- C4, counterexample: on an engine whose operator is not yet allocated,
`operator=(double)` does not allocate — on `BilinearForm` the guarded
assignment leaves `mat` null, and on `MixedBilinearForm` the unguarded
dereference of the null `mat` fails — refuting the claim that any
pre-allocation mutation lazily allocates and succeeds on both engines. -/
theorem c4_assign_counterexample :
    (BFState.assignScalar (⟨none, none, 0⟩ : BFState 1) 5).mat = none ∧
    MixedBFState.assignScalar (⟨none⟩ : MixedBFState 1 1) 5 = none := by
  exact ⟨rfl, rfl⟩

/-- C4 (amended): `AllocateMatrix` lazily allocates the operator when it is
null (and leaves an allocated operator alone); `BilinearForm::operator=`
before allocation is a guarded no-op on each null pointer — it neither
allocates nor fails; `MixedBilinearForm::operator=` dereferences `mat`
unconditionally and therefore succeeds exactly when the operator is already
allocated. -/
theorem c4_lazy_allocation (n testN trialN : Nat) :
    (∀ s : BFState n, s.mat = none →
        (BFState.allocateMatrix s).mat = some (zeroMat n n)) ∧
    (∀ s : BFState n, s.mat.isSome → BFState.allocateMatrix s = s) ∧
    (∀ (s : BFState n) (a : ℚ), s.mat = none →
        (BFState.assignScalar s a).mat = none) ∧
    (∀ (s : MixedBFState testN trialN) (a : ℚ),
        (MixedBFState.assignScalar s a).isSome ↔ s.mat.isSome) := by
  refine ⟨?_, ?_, ?_, ?_⟩
  · intro s h
    simp [BFState.allocateMatrix, h]
  · intro s h
    have hne : ¬ s.mat = none := by
      cases hm : s.mat
      · rw [hm] at h; simp at h
      · simp
    simp [BFState.allocateMatrix, hne]
  · intro s a h
    simp [BFState.assignScalar, h]
  · intro s a
    cases hm : s.mat <;> simp [MixedBFState.assignScalar, hm]

/-- C4 witness: concrete unallocated and allocated engine states. -/
theorem c4_lazy_allocation_witness :
    ((⟨none, none, 0⟩ : BFState 1).mat = none ∧
      (BFState.allocateMatrix (⟨none, none, 0⟩ : BFState 1)).mat
        = some (zeroMat 1 1)) ∧
    ((⟨none, none, 0⟩ : BFState 1).mat = none ∧
      (BFState.assignScalar (⟨none, none, 0⟩ : BFState 1) 5).mat = none) :=
  ⟨⟨rfl, (c4_lazy_allocation 1 1 1).1 ⟨none, none, 0⟩ rfl⟩,
   ⟨rfl, (c4_lazy_allocation 1 1 1).2.2.1 ⟨none, none, 0⟩ 5 rfl⟩⟩

/-- C7: `ConformingAssemble` replaces the operator `A` by `Pᵗ A P`; when the
prolongation `P` is the identity the operator is unchanged, and the
operation is idempotent in that case. -/
theorem c7_conforming_assemble_identity (n : Nat) :
    (∀ (P : Mat n n) (A : Mat n n),
        conformingAssemble P A = matMul (matMul (transposeMat P) A) P) ∧
    (∀ A : Mat n n, conformingAssemble (idMat n) A = A) ∧
    (∀ A : Mat n n,
        conformingAssemble (idMat n) (conformingAssemble (idMat n) A)
          = conformingAssemble (idMat n) A) := by
  have hid : ∀ A : Mat n n, conformingAssemble (idMat n) A = A := by
    intro A
    funext i j
    simp [conformingAssemble, matMul, transposeMat, idMat, ite_mul, mul_ite,
      one_mul, mul_one, zero_mul, mul_zero, Finset.sum_ite_eq,
      Finset.sum_ite_eq']
  exact ⟨fun P A => rfl, hid, fun A => by rw [hid A, hid A]⟩

/-- C9: `LoseMat` returns the current primary operator, nulls the engine's
matrix pointer, changes no other engine state, and a second call with no
intervening reallocation returns null — on both `BilinearForm` and
`MixedBilinearForm`. -/
theorem c9_loseMat_transfers_ownership_once (n testN trialN : Nat) :
    (∀ s : BFState n,
        (BFState.loseMat s).1 = s.mat ∧
        (BFState.loseMat s).2.mat = none ∧
        (BFState.loseMat s).2.mat_e = s.mat_e ∧
        (BFState.loseMat s).2.precompute_sparsity = s.precompute_sparsity ∧
        (BFState.loseMat (BFState.loseMat s).2).1 = none) ∧
    (∀ s : MixedBFState testN trialN,
        (MixedBFState.loseMat s).1 = s.mat ∧
        (MixedBFState.loseMat s).2.mat = none ∧
        (MixedBFState.loseMat (MixedBFState.loseMat s).2).1 = none) :=
  ⟨fun _ => ⟨rfl, rfl, rfl, rfl, rfl⟩, fun _ => ⟨rfl, rfl, rfl⟩⟩

/-- C10: `MixedBilinearForm::MultTranspose` zeroes `y` and then performs
`AddMultTranspose` with its default scale 1.0; the result is independent of
the prior contents of `y` and equals the transposed operator applied to
`x`. -/
theorem c10_multTranspose_zeroes_first (testN trialN : Nat) :
    (∀ (A : Mat testN trialN) (x : Vec testN) (y : Vec trialN),
        mixedMultTranspose A x y = mixedAddMultTranspose A x (fun _ => 0) 1) ∧
    (∀ (A : Mat testN trialN) (x : Vec testN) (y yp : Vec trialN),
        mixedMultTranspose A x y = mixedMultTranspose A x yp) ∧
    (∀ (A : Mat testN trialN) (x : Vec testN) (y : Vec trialN),
        mixedMultTranspose A x y = smMult (transposeMat A) x) := by
  refine ⟨fun A x y => rfl, fun A x y yp => rfl, fun A x y => ?_⟩
  funext j
  simp [mixedMultTranspose, mixedAddMultTranspose, smMult, transposeMat]

/-- C5: the operator assembled from symmetric element matrices is symmetric,
and after eliminating any essential DOF set (rows and columns both cleared)
it stays symmetric on every non-essential index pair. -/
theorem c5_symmetric_assembly_and_elimination (n : Nat) (es : List (ElemMat n))
    (hes : ∀ e ∈ es, ∀ i j, e.m i j = e.m j i) :
    (∀ r c, assemble es r c = assemble es c r) ∧
    (∀ (S : List (Fin n)) (d : Int) (i j : Fin n), i ∉ S → j ∉ S →
        (eliminateVDofs (assemble es, zeroMat n n) S d).1 i j
          = (eliminateVDofs (assemble es, zeroMat n n) S d).1 j i) := by
  have hsym : ∀ r c, assemble es r c = assemble es c r :=
    assemble_foldl_symm es (zeroMat n n) (fun _ _ => rfl) hes
  refine ⟨hsym, ?_⟩
  intro S d i j hi hj
  unfold eliminateVDofs
  rw [elimList_fst_closed]
  by_cases hij : i = j
  · subst hij; rfl
  · simp [elimClosedA, hij, Ne.symm hij, hi, hj, hsym i j]

/-- C5 witness: a single two-node element with the canonical symmetric
stiffness matrix `[[1,-1],[-1,1]]`. -/
theorem c5_symmetric_assembly_and_elimination_witness :
    (∀ e ∈ [(⟨2, fun i => i, fun i j => if i = j then 1 else -1⟩ :
        ElemMat 2)], ∀ i j, e.m i j = e.m j i) ∧
    (∀ r c, assemble [(⟨2, fun i => i, fun i j => if i = j then 1 else -1⟩ :
        ElemMat 2)] r c
      = assemble [(⟨2, fun i => i, fun i j => if i = j then 1 else -1⟩ :
        ElemMat 2)] c r) :=
  ⟨by decide,
   (c5_symmetric_assembly_and_elimination 2
      [⟨2, fun i => i, fun i j => if i = j then 1 else -1⟩]
      (by decide)).1⟩

/-- C8: the assembled mixed operator has test-space DOF count rows and
trial-space DOF count columns, and represents the bilinear form:
`a(u,v) = Vᵗ A U` for all trial coefficients `U` and test coefficients
`V`. -/
theorem c8_mixed_operator_representation (testN trialN : Nat)
    (es : List (MixedElemMat testN trialN)) :
    numRows (mixedAssemble es) = testN ∧
    numCols (mixedAssemble es) = trialN ∧
    ∀ (U : Vec trialN) (V : Vec testN),
      dotVec V (smMult (mixedAssemble es) U) = mixedFormValue es U V := by
  refine ⟨rfl, rfl, fun U V => ?_⟩
  unfold mixedAssemble
  rw [mixedFoldl_dot]
  simp [dotVec, smMult, zeroMat]

/-- C6: eliminating the same DOF set a second time with the same diagonal
mode and value changes neither the primary operator nor the eliminated
part; in particular this holds for `EliminateVDofs`. -/
theorem c6_elimination_idempotent (n : Nat) :
    (∀ (p : Mat n n × Mat n n) (S : List (Fin n)) (sd : Bool) (v : ℚ),
        elimList (elimList p S sd v) S sd v = elimList p S sd v) ∧
    (∀ (p : Mat n n × Mat n n) (S : List (Fin n)) (d : Int),
        eliminateVDofs (eliminateVDofs p S d) S d = eliminateVDofs p S d) := by
  have key : ∀ (p : Mat n n × Mat n n) (S : List (Fin n)) (sd : Bool) (v : ℚ),
      elimList (elimList p S sd v) S sd v = elimList p S sd v := by
    intro p S sd v
    obtain ⟨A, Ae⟩ := p
    rw [elimList_pair_closed S A Ae sd v, elimList_pair_closed,
      elimClosedA_idem, elimClosedMove_after, ← elimList_pair_closed]
  exact ⟨key, fun p S d => key p S (d == 0) 1⟩
